import Mathlib

/-!
Verification of the batched relational exchange algorithms and the
concurrent-stage ordering contract of the ratchet ETL pipeline library.

The Go functions of `util/sql.go` (`GetDataFromSQLQuery`, `sendTableData`,
`sendErr`, `SQLInsertData`, `insertObjects`, `buildInsertSQL`,
`sortedColumns`) are embedded as pure Lean functions.  Database handles are
abstracted: a query either fails (the `Except.error` branch) or yields a
column list, a list of raw rows and an optional mid-stream read error; an
INSERT either returns an error before reaching the database, panics, or
reaches `stmt.Exec` with a concrete SQL text and bound value list.
-/

/-- A JSON value as produced by Go's `json.Unmarshal` into `interface{}`
(numbers are modelled as integers; the claims under study only involve
integral numbers). -/
inductive JVal where
  | jnull : JVal
  | jbool : Bool → JVal
  | jnum : Int → JVal
  | jstr : String → JVal
  | jarr : List JVal → JVal
  | jobj : List (String × JVal) → JVal

/-- A decoded JSON object: Go's `map[string]interface{}`, modelled as an
association list (key set = the list of first components). -/
abbrev Obj := List (String × JVal)

/-- Go map indexing `object[k]`: `some` the stored value, `none` when the
key is absent (Go yields the zero `interface{}`, i.e. `nil`). -/
def lookupVal (o : Obj) (k : String) : Option JVal :=
  (o.find? (fun p => p.1 == k)).map Prod.snd

/-- Lexicographic strict comparison of character lists by code point
(UTF-8 byte order, the order used by Go's `sort.Strings`, coincides with
code-point order). -/
def charListLtb : List Char → List Char → Bool
  | [], [] => false
  | [], _ :: _ => true
  | _ :: _, [] => false
  | a :: as, b :: bs =>
    if a.toNat < b.toNat then true
    else if b.toNat < a.toNat then false
    else charListLtb as bs

/-- The (non-strict) lexicographic order on strings used by
`sort.Strings`. -/
def strLe (a b : String) : Prop := charListLtb b.data a.data = false

instance : DecidableRel strLe := fun a b => by
  unfold strLe; infer_instance

/-- Function `sortedColumns` from `util/sql.go`: collect the keys of the object and
sort them with `sort.Strings` (ascending lexicographic order). -/
def sortedColumns (object : Obj) : List String :=
  List.insertionSort strLe (object.map Prod.fst)

/-- The `(?,?,...,?)` placeholder group built by the first loop of
`buildInsertSQL`: `vals := "("`, then for `i` in `0..numCols-1` append `","`
when `i > 0` and then `"?"`, finally `")"`. -/
def valsGroup (numCols : Nat) : String :=
  ((List.range numCols).foldl
    (fun s i => (if 0 < i then s ++ "," else s) ++ "?") "(") ++ ")"

/-- Function `buildInsertSQL` from `util/sql.go`.  `objects[0]` is modelled by
`objects.headD []`; the function is only ever applied to a non-empty list
(on an empty list the Go code panics before `buildInsertSQL` can return,
which `insertObjects` below accounts for). -/
def buildInsertSQL (objects : List Obj) (tableName : String)
    (onDupKeyUpdate : Bool) : String :=
  let cols := sortedColumns (objects.headD [])
  let base := "INSERT INTO " ++ tableName ++ "(" ++
    String.intercalate "," cols ++ ") VALUES"
  let vals := valsGroup cols.length
  let withGroups := (List.range objects.length).foldl
    (fun s i => (if 0 < i then s ++ "," else s) ++ vals) base
  if onDupKeyUpdate then
    withGroups ++ " ON DUPLICATE KEY UPDATE " ++
      cols.enum.foldl
        (fun s p => (if 0 < p.1 then s ++ "," else s) ++
          "`" ++ p.2 ++ "`=VALUES(`" ++ p.2 ++ "`)") ""
  else
    withGroups

/-- The bound-value list assembled by `insertObjects`: the columns of the
first object, sorted, and for every object in batch order its value at each
sorted column. -/
def insertVals (objects : List Obj) : List (Option JVal) :=
  let cols := sortedColumns (objects.headD [])
  objects.foldl (fun vals o => vals ++ cols.map (lookupVal o)) []

/-- Outcome of `SQLInsertData`/`insertObjects`.  `executed sql binds` means
the code reached `stmt.Exec` having prepared `sql` with bound values
`binds`; `errored` is a returned Go `error`; `panicked` is a Go runtime
panic (failed type assertion or out-of-range index), which is not a
returned error. -/
inductive SinkResult where
  | executed : String → List (Option JVal) → SinkResult
  | errored : String → SinkResult
  | panicked : SinkResult

/-- Function `insertObjects` from `util/sql.go`, with the database abstracted: on an
empty batch `buildInsertSQL` evaluates `objects[0]` and panics; otherwise
the prepared statement text and the bound values are recorded.  (`Prepare`
/ `Exec` failures coming back from the database are environmental and not
modelled.) -/
def insertObjects (objects : List Obj) (tableName : String)
    (onDupKeyUpdate : Bool) : SinkResult :=
  match objects with
  | [] => .panicked
  | _ :: _ =>
    .executed (buildInsertSQL objects tableName onDupKeyUpdate)
      (insertVals objects)

/-- The element-wise type assertion `o.(map[string]interface{})` performed
on each member of a `[]interface{}` value: `none` models the panic raised
by Go on the first non-object element. -/
def assertObjects : List JVal → Option (List Obj)
  | [] => some []
  | .jobj f :: rest => (assertObjects rest).map (f :: ·)
  | _ :: _ => none

/-- The Go `%T` type name of a decoded JSON value that reaches the
`default` branch of the type switch in `SQLInsertData`. -/
def goTypeName : JVal → String
  | .jnull => "<nil>"
  | .jbool _ => "bool"
  | .jnum _ => "float64"
  | .jstr _ => "string"
  | .jarr _ => "[]interface \x7b\x7d"
  | .jobj _ => "map[string]interface \x7b\x7d"

/-- Function `SQLInsertData` from `util/sql.go`, starting from the value decoded by
`ParseData` (a JSON `interface{}`): the type switch admits `[]interface{}`
(asserting every element to be an object — panicking otherwise), a single
`map[string]interface{}`, and returns the `unsupported data type` error in
the `default` branch.  (The `[]map[string]interface{}` switch case can
never hold a value produced by decoding JSON into `interface{}` and so has
no counterpart on `JVal`.) -/
def SQLInsertData (v : JVal) (tableName : String)
    (onDupKeyUpdate : Bool) : SinkResult :=
  match v with
  | .jarr elems =>
    match assertObjects elems with
    | none => .panicked
    | some objs => insertObjects objs tableName onDupKeyUpdate
  | .jobj fields => insertObjects [fields] tableName onDupKeyUpdate
  | other =>
    .errored ("SQLInsertData: unsupported data type: " ++ goTypeName other)

/-- Holds exactly when the sink returned a Go `error` value. -/
def isErrored : SinkResult → Bool
  | .errored _ => true
  | _ => false

/-- Holds exactly when the sink reached `stmt.Exec`. -/
def isExecuted : SinkResult → Bool
  | .executed _ _ => true
  | _ => false

/-- Decoded values hitting the `default` branch of the type switch:
neither an object nor an array. -/
def isNonTabular : JVal → Bool
  | .jobj _ => false
  | .jarr _ => false
  | _ => true

/-- Comma join, the shape produced by the `if i > 0 { s += "," }` loops of
`buildInsertSQL` (and by `strings.Join`). -/
def joinComma : List String → String
  | [] => ""
  | [x] => x
  | x :: y :: xs => x ++ "," ++ joinComma (y :: xs)

/-- Plain concatenation of a list of strings. -/
def catList : List String → String
  | [] => ""
  | x :: xs => x ++ catList xs

/-- The ON DUPLICATE KEY UPDATE assignment list over the given columns. -/
def dupClause (cols : List String) : String :=
  joinComma (cols.map (fun c => "`" ++ c ++ "`=VALUES(`" ++ c ++ "`)"))

/-- The decoded input of the spec's sink example:
`[{"b":1,"a":2}, {"b":3,"a":4}]`. -/
def c1Input : JVal :=
  .jarr [.jobj [("b", .jnum 1), ("a", .jnum 2)],
         .jobj [("b", .jnum 3), ("a", .jnum 4)]]

/-! ### The Batched Relational Source (`GetDataFromSQLQuery`) -/

/-- A raw column value delivered by `rows.Scan` into an `interface{}`
slot: either a `[]byte` (which the loop coerces to `string`) or any other
driver value. -/
inductive SQLRawVal where
  | bytes : String → SQLRawVal
  | val : JVal → SQLRawVal

/-- One raw result row: the `values` slice after `rows.Scan`, one slot per
column. -/
abbrev RawRow := List SQLRawVal

/-- The coercion in the row loop: `if b, ok := val.([]byte); ok { v =
string(b) } else { v = val }`. -/
def coerceVal : SQLRawVal → JVal
  | .bytes s => .jstr s
  | .val v => v

/-- Building `entry` for one row: `entry[col] = v` for each column in
order. -/
def buildEntry (cols : List String) (row : RawRow) : Obj :=
  (cols.zip row).map (fun p => (p.1, coerceVal p.2))

/-- A payload sent on the data channel: either a serialized batch of row
objects (`sendTableData`) or the `sendErr` JSON text carrying an error
message. -/
inductive Envelope where
  | batch : List Obj → Envelope
  | errJSON : String → Envelope

/-- An observable action of the streaming goroutine on its output
channel. -/
inductive ChanEvent where
  | send : Envelope → ChanEvent
  | close : ChanEvent

/-- The `for rows.Next()` loop of `GetDataFromSQLQuery`: build each row's
entry, append it to `tableData`, and whenever `batchSize > 0 &&
len(tableData) >= batchSize` send the accumulated batch and start a fresh
one.  Returns the batches sent during the loop and the final leftover
`tableData`.  (`NewData` is `json.Marshal`, which cannot fail on these
values, so `sendTableData` always sends the batch.) -/
def scanLoop (batchSize : Int) (cols : List String) :
    List RawRow → List Obj → List (List Obj) × List Obj
  | [], acc => ([], acc)
  | r :: rs, acc =>
    let acc' := acc ++ [buildEntry cols r]
    if 0 < batchSize ∧ (batchSize ≤ (acc'.length : Int)) then
      let rest := scanLoop batchSize cols rs []
      (acc' :: rest.1, rest.2)
    else
      scanLoop batchSize cols rs acc'

/-- Function `sendErr` from `util/sql.go`: the raw bytes written to the data
channel for an error, a literal concatenation with no JSON escaping of the
message. -/
def sendErrPayload (msg : String) : String :=
  "\x7b\"Error\":\"" ++ msg ++ "\"\x7d"

/-- The complete event trace of the streaming goroutine: the batches sent
from inside the row loop, then — when `rows.Err()` is non-nil — the single
`sendErr` envelope, then the flush of any non-empty leftover batch, then
`close(dataChan)`. -/
def sqlQueryTrace (batchSize : Int) (cols : List String) (rows : List RawRow)
    (readErr : Option String) : List ChanEvent :=
  let r := scanLoop batchSize cols rows []
  (r.1.map (fun b => .send (.batch b))) ++
    (match readErr with
     | some m => [.send (.errJSON m)]
     | none => []) ++
    (if r.2.isEmpty then [] else [.send (.batch r.2)]) ++
    [.close]

/-- The result-set handle returned by `db.Query` on success: the outcome
of `rows.Columns()`, the rows that `rows.Next()` yields, and the value of
`rows.Err()` observed after the loop. -/
structure RowsHandle where
  columns : Except String (List String)
  rawRows : List RawRow
  readErr : Option String

/-- Function `GetDataFromSQLQuery` from `util/sql.go`: a `db.Query` failure or a
`rows.Columns()` failure is returned synchronously (`Except.error`) —
no channel is created and no goroutine runs; otherwise the value is the
full event trace the goroutine produces on the fresh data channel. -/
def GetDataFromSQLQuery (queryRes : Except String RowsHandle)
    (batchSize : Int) : Except String (List ChanEvent) :=
  match queryRes with
  | .error e => .error e
  | .ok h =>
    match h.columns with
    | .error e => .error e
    | .ok cols => .ok (sqlQueryTrace batchSize cols h.rawRows h.readErr)

/-- The batches carried by the data envelopes of a trace, in send order. -/
def dataBatches (tr : List ChanEvent) : List (List Obj) :=
  tr.filterMap (fun e =>
    match e with
    | .send (.batch b) => some b
    | _ => none)

/-- The error messages carried by `sendErr` envelopes of a trace, in send
order. -/
def errMsgs (tr : List ChanEvent) : List String :=
  tr.filterMap (fun e =>
    match e with
    | .send (.errJSON m) => some m
    | _ => none)

/-- Holds exactly on the channel-close event. -/
def isCloseEv : ChanEvent → Bool
  | .close => true
  | _ => false

/-- Reference chunking: split `acc ++ l` into consecutive chunks of size
`b`, the first chunk completing the partial accumulator `acc`; a final
partial chunk is kept only when non-empty. -/
def chunksFrom (b : Nat) (acc : List α) : List α → List (List α)
  | [] => if acc.isEmpty then [] else [acc]
  | x :: xs =>
    let acc' := acc ++ [x]
    if b ≤ acc'.length then acc' :: chunksFrom b [] xs
    else chunksFrom b acc' xs

/-- Five one-column raw rows, used to instantiate the batch-size-2
example. -/
def r5 : List RawRow :=
  [[.val (.jnum 0)], [.val (.jnum 1)], [.val (.jnum 2)],
   [.val (.jnum 3)], [.val (.jnum 4)]]

/-! ### A JSON well-formedness checker (RFC 8259 grammar)

Used to settle what `sendErr`'s unescaped concatenation produces.  The
checker is a recursive-descent recognizer over the character list; each
function returns the remaining input on success. -/

/-- JSON insignificant whitespace. -/
def jsonWs (c : Char) : Bool :=
  c == ' ' || c == '\t' || c == '\n' || c == '\r'

/-- Skip insignificant whitespace. -/
def skipWs : List Char → List Char
  | [] => []
  | c :: rest => if jsonWs c then skipWs rest else c :: rest

/-- Hexadecimal digit. -/
def isHexDig (c : Char) : Bool :=
  c.isDigit || ('a' ≤ c && c ≤ 'f') || ('A' ≤ c && c ≤ 'F')

/-- Recognize the body of a JSON string after the opening quote, up to and
including the closing quote: unescaped `"` terminates, `\` must start a
valid escape, and unescaped control characters (code points below 0x20)
are forbidden.  The explicit fuel (any bound on the characters consumed,
never reached when the overall document-length fuel is used) keeps the
recursion structural on `Nat`. -/
def strBody : Nat → List Char → Option (List Char)
  | 0, _ => none
  | _ + 1, [] => none
  | fuel + 1, c :: rest =>
    if c = '"' then some rest
    else if c = '\\' then
      match rest with
      | [] => none
      | e :: rest' =>
        if e = 'u' then
          match rest' with
          | h1 :: h2 :: h3 :: h4 :: rest'' =>
            if isHexDig h1 && isHexDig h2 && isHexDig h3 && isHexDig h4 then
              strBody fuel rest''
            else none
          | _ => none
        else if e = '"' || e = '\\' || e = '/' || e = 'b' || e = 'f' ||
            e = 'n' || e = 'r' || e = 't' then
          strBody fuel rest'
        else none
    else if c.toNat < 32 then none
    else strBody fuel rest

/-- Recognize the part of a JSON number after the optional minus sign:
integer part, optional fraction, optional exponent. -/
def numTail (l : List Char) : Option (List Char) :=
  let intPart : Option (List Char) :=
    match l with
    | '0' :: rest => some rest
    | c :: rest => if c.isDigit then some (rest.dropWhile Char.isDigit) else none
    | [] => none
  match intPart with
  | none => none
  | some l1 =>
    let fracPart : Option (List Char) :=
      match l1 with
      | '.' :: c :: rest =>
        if c.isDigit then some (rest.dropWhile Char.isDigit) else none
      | '.' :: [] => none
      | l' => some l'
    match fracPart with
    | none => none
    | some l2 =>
      match l2 with
      | e :: rest =>
        if e = 'e' || e = 'E' then
          match rest with
          | s :: r =>
            if s = '+' || s = '-' then
              match r with
              | c :: r' => if c.isDigit then some (r'.dropWhile Char.isDigit) else none
              | [] => none
            else if s.isDigit then some (rest.dropWhile Char.isDigit)
            else none
          | [] => none
        else some l2
      | [] => some l2

mutual

/-- Recognize one JSON value (leading whitespace allowed). -/
def jsonVal : Nat → List Char → Option (List Char)
  | 0, _ => none
  | fuel + 1, input =>
    match skipWs input with
    | '\x7b' :: rest =>
      (match skipWs rest with
       | '\x7d' :: rest' => some rest'
       | _ => jsonMembers fuel rest)
    | '[' :: rest =>
      (match skipWs rest with
       | ']' :: rest' => some rest'
       | _ => jsonElems fuel rest)
    | '"' :: rest => strBody fuel rest
    | 't' :: 'r' :: 'u' :: 'e' :: rest => some rest
    | 'f' :: 'a' :: 'l' :: 's' :: 'e' :: rest => some rest
    | 'n' :: 'u' :: 'l' :: 'l' :: rest => some rest
    | '-' :: rest => numTail rest
    | c :: rest => if c.isDigit then numTail (c :: rest) else none
    | [] => none

/-- Recognize a non-empty member list of a JSON object, up to and
including the closing brace: a string key, a colon, a value, then either a
comma and further members or the closing brace (handled by
`jsonMemberTail`). -/
def jsonMembers : Nat → List Char → Option (List Char)
  | 0, _ => none
  | fuel + 1, input =>
    match skipWs input with
    | '"' :: rest =>
      (match strBody fuel rest with
       | none => none
       | some rest' =>
         match skipWs rest' with
         | ':' :: rest'' => jsonMemberTail fuel (jsonVal fuel rest'')
         | _ => none)
    | _ => none

/-- After one object member's value: a comma continues the member list,
a closing brace ends the object. -/
def jsonMemberTail : Nat → Option (List Char) → Option (List Char)
  | _, none => none
  | 0, some _ => none
  | fuel + 1, some rest3 =>
    match skipWs rest3 with
    | ',' :: rest4 => jsonMembers fuel rest4
    | '\x7d' :: rest4 => some rest4
    | _ => none

/-- Recognize a non-empty element list of a JSON array, up to and
including the closing bracket. -/
def jsonElems : Nat → List Char → Option (List Char)
  | 0, _ => none
  | fuel + 1, input => jsonElemTail fuel (jsonVal fuel input)

/-- After one array element: a comma continues the element list, a
closing bracket ends the array. -/
def jsonElemTail : Nat → Option (List Char) → Option (List Char)
  | _, none => none
  | 0, some _ => none
  | fuel + 1, some rest =>
    match skipWs rest with
    | ',' :: rest' => jsonElems fuel rest'
    | ']' :: rest' => some rest'
    | _ => none

end

/-- A string is a well-formed JSON document when one JSON value followed
only by whitespace consumes it entirely.  The fuel `length + 1` is ample:
every recursive step first consumes at least one character. -/
def isValidJSON (s : String) : Bool :=
  match jsonVal (s.data.length + 1) s.data with
  | some rest => (skipWs rest).isEmpty
  | none => false

/-- Holds when the message contains a character that JSON string syntax
does not allow to appear unescaped: a double quote, a backslash, or a
control character. -/
def msgHasSpecial (s : String) : Bool :=
  s.data.any (fun c => c == '"' || c == '\\' || c.toNat < 32)

/-! ### The concurrent-stage reordering algorithm

Modelled from the spec: the pipeline orchestrator that drives a
`ConcurrentPipelineStage` is not under `src/` (only the interface and its
ordering contract in `pipeline_stage.go` are), so the reordering design of
spec §4.3 is embedded: each admitted input gets a monotonically increasing
sequence number, workers deposit their output sub-sequences into a shared
buffer keyed by sequence number, and a single emitter holds a next-expected
cursor, forwarding buffered entries in cursor order.  A worker-completion
schedule is any order in which the sequence numbers get deposited; pool
size K only restricts which schedules can occur, so quantifying over all
permutations covers every K. -/

/-- The emitter/buffer/cursor state of a concurrent stage, together with
the records already forwarded downstream. -/
structure PoolState (β : Type u) where
  buf : List (Nat × List β)
  cursor : Nat
  emitted : List β

/-- Remove the buffer entry with key `k`, returning its value and the
remaining buffer; `none` when `k` is not buffered. -/
def lookupRemove (k : Nat) : List (Nat × List β) → Option (List β × List (Nat × List β))
  | [] => none
  | p :: rest =>
    if p.1 = k then some (p.2, rest)
    else
      match lookupRemove k rest with
      | none => none
      | some (v, rest') => some (v, p :: rest')

/-- The emitter loop with explicit fuel: while the buffer holds the
cursor's entry, pop it, forward its records, and advance the cursor.  Fuel
at least the buffer length makes the loop run to quiescence, since each
pop shrinks the buffer. -/
def drainAux : Nat → List (Nat × List β) → Nat → List β × List (Nat × List β) × Nat
  | 0, buf, c => ([], buf, c)
  | fuel + 1, buf, c =>
    match lookupRemove c buf with
    | none => ([], buf, c)
    | some (v, buf') =>
      let r := drainAux fuel buf' (c + 1)
      (v ++ r.1, r.2.1, r.2.2)

/-- Run the emitter until no entry with the cursor's key remains. -/
def drain (buf : List (Nat × List β)) (c : Nat) : List β × List (Nat × List β) × Nat :=
  drainAux buf.length buf c

/-- A worker finishing input number `k` deposits its output sub-sequence
into the buffer, after which the emitter forwards every consecutive
buffered entry starting at the cursor. -/
def deposit (st : PoolState β) (k : Nat) (out : List β) : PoolState β :=
  let r := drain (st.buf ++ [(k, out)]) st.cursor
  ⟨r.2.1, r.2.2, st.emitted ++ r.1⟩

/-- Run the stage over a worker-completion schedule: the `k`-th input's
`ProcessData` emits `outputs k`, and deposits happen in schedule order. -/
def runSchedule (outputs : Nat → List β) (sched : List Nat) (st : PoolState β) : PoolState β :=
  sched.foldl (fun s k => deposit s k (outputs k)) st

/-- Everything the stage forwarded downstream after all workers finished,
starting from the empty buffer, cursor 0 and nothing emitted. -/
def concurrentStageOutput (outputs : Nat → List β) (sched : List Nat) : List β :=
  (runSchedule outputs sched ⟨[], 0, []⟩).emitted

/-- The invariant tying a pool state to the set `done` of already-deposited
sequence numbers: buffered entries hold exactly the finished outputs whose
number is at least the cursor, everything below the cursor is finished,
the cursor's own entry is not buffered (the emitter is quiescent), and the
emitted records are precisely the outputs of `0 .. cursor-1` in order. -/
def PoolInv (outputs : Nat → List β) (done : List Nat) (st : PoolState β) : Prop :=
  (∀ p ∈ st.buf, p.2 = outputs p.1) ∧
  (st.buf.map Prod.fst).Nodup ∧
  (∀ j, j ∈ st.buf.map Prod.fst ↔ (j ∈ done ∧ st.cursor ≤ j)) ∧
  (∀ j, j < st.cursor → j ∈ done) ∧
  st.cursor ∉ st.buf.map Prod.fst ∧
  st.emitted = ((List.range st.cursor).map outputs).flatten

/-! ### The Record Envelope operations

Modelled from the spec: `wrap`, `extractObjects` and `parse` live in the
`data` package, which is not under `src/` (only callers are).  Wrapping
serializes a value to JSON bytes and extraction decodes them; since
serializing a JSON value and re-parsing it is the identity on the value,
the byte round trip is modelled as the identity on `JVal` and extraction
operates on the decoded value, per spec §4.1. -/

/-- Modelled from the spec: `wrap(value)` serializes a native structure to
an envelope; the envelope is identified with the JSON value it denotes. -/
def wrap (v : JVal) : JVal := v

/-- The element-wise check that every member of a decoded array is an
object, failing with a `DecodeError` otherwise. -/
def objsOf : List JVal → Except String (List Obj)
  | [] => .ok []
  | .jobj f :: rest =>
    match objsOf rest with
    | .ok objs => .ok (f :: objs)
    | .error e => .error e
  | _ :: _ => .error "DecodeError"

/-- Modelled from the spec: `extractObjects(envelope)` returns an ordered
sequence of key-value mappings; succeeds for single-object and
object-array shapes; fails with a `DecodeError` for scalar or malformed
payloads. -/
def extractObjects (e : JVal) : Except String (List Obj) :=
  match e with
  | .jobj f => .ok [f]
  | .jarr elems => objsOf elems
  | _ => .error "DecodeError"

/-- All objects of a batch expose the key set of the first one. -/
def uniformKeys (objs : List Obj) : Prop :=
  ∀ o ∈ objs, o.map Prod.fst = (objs.headD []).map Prod.fst

/-! ## Helper lemmas -/

theorem scanLoop_nonpos (B : Int) (hB : B ≤ 0) (cols : List String) :
    ∀ (rows : List RawRow) (acc : List Obj),
      scanLoop B cols rows acc = ([], acc ++ rows.map (buildEntry cols)) := by
  intro rows
  induction rows with
  | nil => intro acc; simp [scanLoop]
  | cons r rs ih =>
    intro acc
    rw [scanLoop]
    have hnot : ¬(0 < B ∧ B ≤ ((acc ++ [buildEntry cols r]).length : Int)) := by
      rintro ⟨h1, -⟩; omega
    simp only [if_neg hnot, ih]
    simp

theorem scanLoop_chunks (B : Int) (hB : 0 < B) (cols : List String) :
    ∀ (rows : List RawRow) (acc : List Obj), acc.length < B.toNat →
      (scanLoop B cols rows acc).1 ++
        (if (scanLoop B cols rows acc).2.isEmpty then []
         else [(scanLoop B cols rows acc).2]) =
      chunksFrom B.toNat acc (rows.map (buildEntry cols)) := by
  intro rows
  induction rows with
  | nil =>
    intro acc _
    simp [scanLoop, chunksFrom]
  | cons r rs ih =>
    intro acc hacc
    rw [scanLoop]
    simp only [List.map_cons, chunksFrom]
    by_cases hc : B.toNat ≤ (acc ++ [buildEntry cols r]).length
    · have hci : 0 < B ∧ B ≤ ((acc ++ [buildEntry cols r]).length : Int) := by
        constructor
        · exact hB
        · rwa [← Int.toNat_le]
      rw [if_pos hci, if_pos hc]
      have hnil : ([] : List Obj).length < B.toNat := by
        simp only [List.length_nil]
        omega
      have := ih [] hnil
      simp only [List.cons_append, List.cons.injEq, true_and]
      exact this
    · have hci : ¬(0 < B ∧ B ≤ ((acc ++ [buildEntry cols r]).length : Int)) := by
        rintro ⟨-, h2⟩; rw [← Int.toNat_le] at h2; omega
      rw [if_neg hci, if_neg hc]
      exact ih (acc ++ [buildEntry cols r]) (by simp at hc ⊢; omega)

theorem chunksFrom_flatten (b : Nat) :
    ∀ (l acc : List α), (chunksFrom b acc l).flatten = acc ++ l := by
  intro l
  induction l with
  | nil =>
    intro acc
    by_cases h : acc.isEmpty
    · simp [chunksFrom, h, List.isEmpty_iff.mp h]
    · simp [chunksFrom, h]
  | cons x xs ih =>
    intro acc
    rw [chunksFrom]
    by_cases hc : b ≤ (acc ++ [x]).length
    · simp only [if_pos hc, List.flatten_cons, ih []]
      simp
    · simp only [if_neg hc, ih (acc ++ [x])]
      simp

theorem chunksFrom_map_length (b : Nat) (hb : 0 < b) :
    ∀ (l acc : List α), acc.length < b →
      (chunksFrom b acc l).map List.length =
        List.replicate ((acc.length + l.length) / b) b ++
          (if (acc.length + l.length) % b = 0 then []
           else [(acc.length + l.length) % b]) := by
  intro l
  induction l with
  | nil =>
    intro acc hacc
    by_cases h : acc.isEmpty
    · have : acc = [] := List.isEmpty_iff.mp h
      subst this
      simp [chunksFrom, Nat.zero_mod, Nat.zero_div, hb]
    · have hne : acc ≠ [] := fun he => by simp [he] at h
      have hpos : 0 < acc.length := List.length_pos.mpr hne
      rw [chunksFrom, if_neg (by simpa using h)]
      simp only [List.length_nil, Nat.add_zero]
      have h1 : acc.length / b = 0 := Nat.div_eq_of_lt hacc
      have h2 : acc.length % b = acc.length := Nat.mod_eq_of_lt hacc
      rw [h1, h2, if_neg (by omega)]
      simp
  | cons x xs ih =>
    intro acc hacc
    rw [chunksFrom]
    by_cases hc : b ≤ (acc ++ [x]).length
    · have hlen : (acc ++ [x]).length = b := by simp at hc ⊢; omega
      rw [if_pos hc]
      have hnil : ([] : List α).length < b := by
        simp only [List.length_nil]; omega
      rw [List.map_cons, hlen, ih [] hnil]
      have hm : acc.length + (x :: xs).length = xs.length + b := by
        simp at hlen ⊢; omega
      rw [hm]
      rw [Nat.add_div_right _ hb, Nat.add_mod_right]
      simp only [List.length_nil, Nat.zero_add, List.replicate_succ,
        List.cons_append]
    · rw [if_neg hc]
      have h1 := ih (acc ++ [x]) (by simp at hc ⊢; omega)
      rw [h1]
      have : (acc ++ [x]).length + xs.length = acc.length + (x :: xs).length := by
        simp; omega
      rw [this]

theorem ceil_div_eq (b n : Nat) (hb : 0 < b) :
    n / b + (if n % b = 0 then 0 else 1) = (n + b - 1) / b := by
  have h1 := Nat.div_add_mod n b
  set q := n / b with hq
  set r := n % b with hr
  have hrb : r < b := Nat.mod_lt _ hb
  by_cases h : r = 0
  · rw [if_pos h]
    have he : n + b - 1 = (b - 1) + b * q := by omega
    rw [he, Nat.add_mul_div_left _ _ hb, Nat.div_eq_of_lt (by omega)]
    omega
  · rw [if_neg h]
    have hbq : b * (q + 1) = b * q + b := by ring
    have he : n + b - 1 = (r - 1) + b * (q + 1) := by omega
    rw [he, Nat.add_mul_div_left _ _ hb, Nat.div_eq_of_lt (by omega)]
    omega

theorem dataBatches_sendBatch (l : List (List Obj)) :
    dataBatches (l.map (fun b => .send (.batch b))) = l := by
  induction l with
  | nil => rfl
  | cons x xs ih => simpa [dataBatches, List.filterMap_cons] using ih

theorem errMsgs_sendBatch (l : List (List Obj)) :
    errMsgs (l.map (fun b => .send (.batch b))) = [] := by
  induction l with
  | nil => rfl
  | cons x xs ih => simp [errMsgs, List.filterMap_cons]

theorem noClose_sendBatch (l : List (List Obj)) :
    ∀ e ∈ l.map (fun b => ChanEvent.send (.batch b)), isCloseEv e = false := by
  intro e he
  rcases List.mem_map.mp he with ⟨b, -, rfl⟩
  rfl

theorem dataBatches_trace (B : Int) (cols : List String) (rows : List RawRow)
    (err : Option String) :
    dataBatches (sqlQueryTrace B cols rows err) =
      (scanLoop B cols rows []).1 ++
        (if (scanLoop B cols rows []).2.isEmpty then []
         else [(scanLoop B cols rows []).2]) := by
  unfold sqlQueryTrace dataBatches
  rw [List.filterMap_append, List.filterMap_append, List.filterMap_append]
  have h1 := dataBatches_sendBatch (scanLoop B cols rows []).1
  unfold dataBatches at h1
  rw [h1]
  cases err <;> by_cases h : (scanLoop B cols rows []).2.isEmpty <;>
    simp [h, List.filterMap_cons]

theorem errMsgs_trace (B : Int) (cols : List String) (rows : List RawRow)
    (err : Option String) :
    errMsgs (sqlQueryTrace B cols rows err) = err.toList := by
  unfold sqlQueryTrace errMsgs
  rw [List.filterMap_append, List.filterMap_append, List.filterMap_append]
  have h1 := errMsgs_sendBatch (scanLoop B cols rows []).1
  unfold errMsgs at h1
  rw [h1]
  cases err <;> by_cases h : (scanLoop B cols rows []).2.isEmpty <;>
    simp [h, List.filterMap_cons]

theorem objsOf_map (objs : List Obj) : objsOf (objs.map JVal.jobj) = .ok objs := by
  induction objs with
  | nil => rfl
  | cons o os ih => simp [objsOf, ih]

theorem trace_close_last (B : Int) (cols : List String) (rows : List RawRow)
    (err : Option String) :
    (sqlQueryTrace B cols rows err).getLast? = some .close ∧
      ((sqlQueryTrace B cols rows err).filter isCloseEv).length = 1 := by
  unfold sqlQueryTrace
  constructor
  · simp [List.getLast?_append]
  · rw [List.filter_append, List.filter_append, List.filter_append]
    have h1 : List.filter isCloseEv
        ((scanLoop B cols rows []).1.map (fun b => .send (.batch b))) = [] := by
      rw [List.filter_eq_nil_iff]
      intro e he
      simp [noClose_sendBatch _ e he]
    rw [h1]
    cases err <;> by_cases h : (scanLoop B cols rows []).2.isEmpty <;>
      simp [h, isCloseEv]

theorem charListLtb_irrefl : ∀ l : List Char, charListLtb l l = false := by
  intro l
  induction l with
  | nil => rfl
  | cons a as ih =>
    rw [charListLtb]
    simp [ih]

theorem charListLtb_trans :
    ∀ {a b c : List Char}, charListLtb a b = true → charListLtb b c = true →
      charListLtb a c = true := by
  intro a
  induction a with
  | nil =>
    intro b c hab hbc
    cases b with
    | nil => exact absurd hab (by simp [charListLtb])
    | cons y ys =>
      cases c with
      | nil => exact absurd hbc (by simp [charListLtb])
      | cons z zs => rfl
  | cons x xs ih =>
    intro b c hab hbc
    cases b with
    | nil => exact absurd hab (by simp [charListLtb])
    | cons y ys =>
      cases c with
      | nil => exact absurd hbc (by simp [charListLtb])
      | cons z zs =>
        rw [charListLtb] at hab hbc ⊢
        by_cases h1 : x.toNat < y.toNat
        · by_cases h2 : y.toNat < z.toNat
          · rw [if_pos (by omega)]
          · rw [if_neg h2] at hbc
            by_cases h2' : z.toNat < y.toNat
            · rw [if_pos h2'] at hbc; exact Bool.noConfusion hbc
            · rw [if_neg h2'] at hbc
              rw [if_pos (by omega)]
        · rw [if_neg h1] at hab
          by_cases h1' : y.toNat < x.toNat
          · rw [if_pos h1'] at hab; exact Bool.noConfusion hab
          · rw [if_neg h1'] at hab
            by_cases h2 : y.toNat < z.toNat
            · rw [if_pos (by omega)]
            · rw [if_neg h2] at hbc
              by_cases h2' : z.toNat < y.toNat
              · rw [if_pos h2'] at hbc; exact Bool.noConfusion hbc
              · rw [if_neg h2'] at hbc
                rw [if_neg (by omega), if_neg (by omega)]
                exact ih hab hbc

theorem charListLtb_antisymm :
    ∀ {a b : List Char}, charListLtb a b = false → charListLtb b a = false →
      a = b := by
  intro a
  induction a with
  | nil =>
    intro b hab _
    cases b with
    | nil => rfl
    | cons y ys => exact absurd hab (by simp [charListLtb])
  | cons x xs ih =>
    intro b hab hba
    cases b with
    | nil => exact absurd hba (by simp [charListLtb])
    | cons y ys =>
      rw [charListLtb] at hab hba
      by_cases h1 : x.toNat < y.toNat
      · simp [h1] at hab
      · by_cases h2 : y.toNat < x.toNat
        · simp [h1, h2] at hba
        · simp only [h1, h2, if_neg, if_false] at hab hba
          have hxy : x = y := by
            have e1 : x.toNat = x.val.toNat := rfl
            have e2 : y.toNat = y.val.toNat := rfl
            exact Char.ext (UInt32.ext (by omega))
          have : xs = ys := ih hab hba
          rw [hxy, this]

theorem strLe_total_thm (a b : String) : strLe a b ∨ strLe b a := by
  unfold strLe
  by_cases h : charListLtb b.data a.data = false
  · exact Or.inl h
  · right
    rw [Bool.not_eq_false] at h
    by_contra hc
    rw [Bool.not_eq_false] at hc
    have := charListLtb_trans h hc
    rw [charListLtb_irrefl] at this
    exact Bool.noConfusion this

theorem strLe_trans_thm (a b c : String) (h1 : strLe a b) (h2 : strLe b c) :
    strLe a c := by
  unfold strLe at *
  by_contra hc
  rw [Bool.not_eq_false] at hc
  by_cases h3 : charListLtb b.data c.data = true
  · have := charListLtb_trans h3 hc
    rw [this] at h1
    exact Bool.noConfusion h1
  · rw [Bool.not_eq_true] at h3
    have heq : b.data = c.data := charListLtb_antisymm h3 h2
    rw [← heq] at hc
    rw [hc] at h1
    exact Bool.noConfusion h1

theorem sortedColumns_sorted (o : Obj) :
    (sortedColumns o).Sorted strLe := by
  haveI : IsTotal String strLe := ⟨strLe_total_thm⟩
  haveI : IsTrans String strLe := ⟨strLe_trans_thm⟩
  exact List.sorted_insertionSort strLe (o.map Prod.fst)

theorem sortedColumns_perm (o : Obj) :
    (sortedColumns o).Perm (o.map Prod.fst) :=
  List.perm_insertionSort strLe (o.map Prod.fst)

theorem joinComma_concat :
    ∀ (l : List String) (x : String), l ≠ [] →
      joinComma (l ++ [x]) = joinComma l ++ "," ++ x := by
  intro l
  induction l with
  | nil => intro x h; exact absurd rfl h
  | cons a as ih =>
    intro x _
    cases as with
    | nil => rfl
    | cons b bs =>
      have h1 : joinComma ((a :: b :: bs) ++ [x]) =
          a ++ "," ++ joinComma ((b :: bs) ++ [x]) := rfl
      rw [h1, ih x (by simp), joinComma]
      simp [String.append_assoc]

theorem foldl_commas (t : String) :
    ∀ (n : Nat) (init : String),
      (List.range n).foldl
        (fun s i => (if 0 < i then s ++ "," else s) ++ t) init =
        init ++ joinComma (List.replicate n t) := by
  intro n
  induction n with
  | zero => intro init; simp [joinComma, String.append_empty]
  | succ n ih =>
    intro init
    rw [List.range_succ, List.foldl_append, ih]
    cases n with
    | zero => simp [joinComma, String.append_empty]
    | succ m =>
      rw [List.foldl_cons, List.foldl_nil, if_pos (Nat.succ_pos m)]
      rw [List.replicate_succ' (m + 1) t,
        joinComma_concat _ t (by simp [List.replicate_succ]),
        ← String.append_assoc, ← String.append_assoc]

theorem foldl_commas_enumFrom (g : String → String) :
    ∀ (l : List String) (j : Nat) (init : String),
      (List.enumFrom (j + 1) l).foldl
        (fun s p => (if 0 < p.1 then s ++ "," else s) ++ g p.2) init =
        init ++ catList (l.map (fun x => "," ++ g x)) := by
  intro l
  induction l with
  | nil => intro j init; simp [catList, String.append_empty]
  | cons x xs ih =>
    intro j init
    have h1 : List.enumFrom (j + 1) (x :: xs) =
        (j + 1, x) :: List.enumFrom (j + 2) xs := rfl
    rw [h1, List.foldl_cons, if_pos (Nat.succ_pos j), ih (j + 1)]
    simp [catList, String.append_assoc]

theorem joinComma_eq_catList :
    ∀ (y : String) (ys : List String),
      joinComma (y :: ys) = y ++ catList (ys.map (fun x => "," ++ x)) := by
  intro y ys
  induction ys generalizing y with
  | nil => simp [joinComma, catList, String.append_empty]
  | cons z zs ih =>
    rw [joinComma, ih z]
    simp [catList, String.append_assoc]

theorem foldl_commas_enum (g : String → String) (l : List String) :
    l.enum.foldl
      (fun s p => (if 0 < p.1 then s ++ "," else s) ++ g p.2) "" =
      joinComma (l.map g) := by
  cases l with
  | nil => rfl
  | cons x xs =>
    have h1 : (x :: xs).enum = (0, x) :: List.enumFrom 1 xs := rfl
    rw [h1, List.foldl_cons]
    simp only [Nat.lt_irrefl, if_neg, if_false, String.empty_append]
    rw [foldl_commas_enumFrom g xs 0 (g x), List.map_cons,
      joinComma_eq_catList (g x) (xs.map g), List.map_map]
    rfl

theorem valsGroup_eq (c : Nat) :
    valsGroup c = "(" ++ joinComma (List.replicate c "?") ++ ")" := by
  unfold valsGroup
  rw [foldl_commas "?" c "("]

theorem buildInsertSQL_eq (objects : List Obj) (t : String) (dup : Bool) :
    buildInsertSQL objects t dup =
      "INSERT INTO " ++ t ++ "(" ++
        String.intercalate "," (sortedColumns (objects.headD [])) ++
        ") VALUES" ++
        joinComma (List.replicate objects.length
          (valsGroup (sortedColumns (objects.headD [])).length)) ++
        (if dup then
          " ON DUPLICATE KEY UPDATE " ++
            dupClause (sortedColumns (objects.headD []))
         else "") := by
  unfold buildInsertSQL
  dsimp only
  rw [foldl_commas _ objects.length _]
  cases dup with
  | false => simp [String.append_empty, String.append_assoc]
  | true =>
    rw [if_pos rfl, if_pos rfl]
    unfold dupClause
    rw [← foldl_commas_enum
      (fun c => "`" ++ c ++ "`=VALUES(`" ++ c ++ "`)")
      (sortedColumns (objects.headD []))]
    simp [String.append_assoc]

theorem foldl_append_flatten (g : α → List γ) :
    ∀ (l : List α) (acc : List γ),
      l.foldl (fun vals o => vals ++ g o) acc = acc ++ (l.map g).flatten := by
  intro l
  induction l with
  | nil => intro acc; simp
  | cons x xs ih =>
    intro acc
    rw [List.foldl_cons, ih]
    simp

theorem insertVals_eq (objects : List Obj) :
    insertVals objects =
      (objects.map (fun o =>
        (sortedColumns (objects.headD [])).map (lookupVal o))).flatten := by
  unfold insertVals
  rw [foldl_append_flatten]
  rfl

theorem count_joinComma_marks :
    ∀ c : Nat, (joinComma (List.replicate c "?")).data.count '?' = c := by
  intro c
  induction c with
  | zero => rfl
  | succ n ih =>
    cases n with
    | zero => rfl
    | succ m =>
      have h1 : List.replicate (m + 2) "?" = "?" :: List.replicate (m + 1) "?" :=
        List.replicate_succ "?" (m + 1)
      have h2 : List.replicate (m + 1) "?" = "?" :: List.replicate m "?" :=
        List.replicate_succ "?" m
      rw [h1]
      conv_lhs => rw [h2]
      have h3 : joinComma ("?" :: "?" :: List.replicate m "?") =
          "?" ++ "," ++ joinComma ("?" :: List.replicate m "?") := rfl
      rw [h3]
      rw [String.data_append, String.data_append, List.count_append,
        List.count_append]
      rw [← h2, ih]
      have c1 : List.count '?' "?".data = 1 := rfl
      have c2 : List.count '?' ",".data = 0 := rfl
      rw [c1, c2]
      omega

theorem strBody_clean :
    ∀ (L : List Char), (∀ c ∈ L, c ≠ '"' ∧ c ≠ '\\' ∧ ¬ c.toNat < 32) →
      ∀ (g : Nat) (rest : List Char), L.length < g →
        strBody g (L ++ '"' :: rest) = some rest := by
  intro L
  induction L with
  | nil =>
    intro _ g rest hg
    match g, hg with
    | g' + 1, _ => rfl
  | cons c cs ih =>
    intro h g rest hg
    have hc := h c (by simp)
    match g, hg with
    | g' + 1, hg =>
      rw [List.cons_append, strBody.eq_def]
      dsimp only
      rw [if_neg hc.1, if_neg hc.2.1, if_neg hc.2.2]
      exact ih (fun x hx => h x (by simp [hx])) g' rest (by simp at hg; omega)

theorem jsonVal_errPayload (msg : String)
    (h : ∀ c ∈ msg.data, c ≠ '"' ∧ c ≠ '\\' ∧ ¬ c.toNat < 32) :
    jsonVal (msg.data.length + 13) (sendErrPayload msg).data = some [] := by
  have hdata : (sendErrPayload msg).data =
      '\x7b' :: '"' :: 'E' :: 'r' :: 'r' :: 'o' :: 'r' :: '"' :: ':' :: '"' ::
        (msg.data ++ ['"', '\x7d']) := by
    unfold sendErrPayload
    rw [String.data_append, String.data_append]
    rfl
  rw [hdata]
  have hval : jsonVal (msg.data.length + 11)
      ('"' :: (msg.data ++ ['"', '\x7d'])) = some ['\x7d'] := by
    have e : jsonVal (msg.data.length + 11) ('"' :: (msg.data ++ ['"', '\x7d'])) =
        strBody (msg.data.length + 10) (msg.data ++ '"' :: ['\x7d']) := rfl
    rw [e]
    exact strBody_clean msg.data h (msg.data.length + 10) ['\x7d'] (by omega)
  have estep : jsonVal (msg.data.length + 13)
      ('\x7b' :: '"' :: 'E' :: 'r' :: 'r' :: 'o' :: 'r' :: '"' :: ':' :: '"' ::
        (msg.data ++ ['"', '\x7d'])) =
      jsonMemberTail (msg.data.length + 11)
        (jsonVal (msg.data.length + 11) ('"' :: (msg.data ++ ['"', '\x7d']))) := rfl
  rw [estep, hval]
  rfl

theorem lookupRemove_eq_none (k : Nat) :
    ∀ buf : List (Nat × List β),
      lookupRemove k buf = none ↔ k ∉ buf.map Prod.fst := by
  intro buf
  induction buf with
  | nil => simp [lookupRemove]
  | cons p rest ih =>
    rw [lookupRemove]
    by_cases hp : p.1 = k
    · rw [if_pos hp]
      simp [hp]
    · rw [if_neg hp]
      cases hrec : lookupRemove k rest with
      | none =>
        simp only [List.map_cons, List.mem_cons]
        constructor
        · intro _ hmem
          rcases hmem with h1 | h2
          · exact hp h1.symm
          · exact (ih.mp hrec) h2
        · intro _; trivial
      | some pr =>
        simp only [List.map_cons, List.mem_cons]
        constructor
        · intro h; exact absurd h (by simp)
        · intro hmem
          have : k ∈ rest.map Prod.fst := by
            by_contra hk
            rw [← ih] at hk
            rw [hk] at hrec
            exact Option.noConfusion hrec
          exact absurd (Or.inr this) hmem

theorem lookupRemove_eq_some (k : Nat) :
    ∀ (buf : List (Nat × List β)) (v : List β) (buf' : List (Nat × List β)),
      lookupRemove k buf = some (v, buf') →
      ∃ pre suf, buf = pre ++ (k, v) :: suf ∧ buf' = pre ++ suf ∧
        k ∉ pre.map Prod.fst := by
  intro buf
  induction buf with
  | nil => intro v buf' h; exact absurd h (by simp [lookupRemove])
  | cons p rest ih =>
    intro v buf' h
    rcases p with ⟨k', v'⟩
    rw [lookupRemove] at h
    by_cases hp : k' = k
    · rw [if_pos hp] at h
      rw [Option.some.injEq, Prod.mk.injEq] at h
      have hv : v' = v := h.1
      have hr : rest = buf' := h.2
      refine ⟨[], rest, ?_, ?_, by simp⟩
      · simp [hp, hv]
      · simp [hr]
    · rw [if_neg hp] at h
      cases hrec : lookupRemove k rest with
      | none =>
        rw [hrec] at h
        exact absurd h (by simp)
      | some pr =>
        rcases pr with ⟨v2, rest2⟩
        rw [hrec] at h
        rw [Option.some.injEq, Prod.mk.injEq] at h
        have hv : v2 = v := h.1
        have hb : (k', v') :: rest2 = buf' := h.2
        subst hv
        obtain ⟨pre, suf, h1, h2, h3⟩ := ih v2 rest2 hrec
        refine ⟨(k', v') :: pre, suf, ?_, ?_, ?_⟩
        · rw [List.cons_append, ← h1]
        · rw [← hb, h2]
          rfl
        · simp only [List.map_cons, List.mem_cons]
          rintro (hk | hk)
          · exact hp hk.symm
          · exact h3 hk

theorem drainAux_spec (outputs : Nat → List β) :
    ∀ (fuel : Nat) (buf : List (Nat × List β)) (c : Nat),
      buf.length ≤ fuel →
      (∀ p ∈ buf, p.2 = outputs p.1) →
      (buf.map Prod.fst).Nodup →
      c ≤ (drainAux fuel buf c).2.2 ∧
      (∀ p ∈ (drainAux fuel buf c).2.1, p ∈ buf) ∧
      ((drainAux fuel buf c).2.1.map Prod.fst).Nodup ∧
      (∀ j, j ∈ (drainAux fuel buf c).2.1.map Prod.fst ↔
        (j ∈ buf.map Prod.fst ∧ ¬(c ≤ j ∧ j < (drainAux fuel buf c).2.2))) ∧
      (∀ j, c ≤ j → j < (drainAux fuel buf c).2.2 → j ∈ buf.map Prod.fst) ∧
      (drainAux fuel buf c).2.2 ∉ (drainAux fuel buf c).2.1.map Prod.fst ∧
      (drainAux fuel buf c).1 =
        ((List.range' c ((drainAux fuel buf c).2.2 - c)).map outputs).flatten := by
  intro fuel
  induction fuel with
  | zero =>
    intro buf c hlen _ _
    have hb : buf = [] := List.length_eq_zero.mp (Nat.le_zero.mp hlen)
    subst hb
    refine ⟨le_rfl, by simp [drainAux], by simp [drainAux], ?_, ?_, ?_, ?_⟩
    · intro j; simp [drainAux]
    · intro j h1 h2; simp [drainAux] at h1 h2; omega
    · simp [drainAux]
    · simp [drainAux]
  | succ fuel ih =>
    intro buf c hlen hP hnd
    cases hlr : lookupRemove c buf with
    | none =>
      have hres : drainAux (fuel + 1) buf c = ([], buf, c) := by
        rw [drainAux, hlr]
      rw [hres]
      dsimp only
      have hcnot : c ∉ buf.map Prod.fst := (lookupRemove_eq_none c buf).mp hlr
      refine ⟨le_rfl, fun p hp => hp, hnd, ?_, ?_, hcnot, ?_⟩
      · intro j
        constructor
        · intro hj; exact ⟨hj, by omega⟩
        · intro hj; exact hj.1
      · intro j h1 h2; omega
      · simp
    | some pr =>
      rcases pr with ⟨v, buf'⟩
      have hres : drainAux (fuel + 1) buf c =
          (v ++ (drainAux fuel buf' (c + 1)).1,
           (drainAux fuel buf' (c + 1)).2.1,
           (drainAux fuel buf' (c + 1)).2.2) := by
        rw [drainAux, hlr]
      obtain ⟨pre, suf, hbuf, hbuf', hkpre⟩ := lookupRemove_eq_some c buf v buf' hlr
      have hcv_mem : (c, v) ∈ buf := by rw [hbuf]; simp
      have hsub : ∀ p ∈ buf', p ∈ buf := by
        intro p hp
        rw [hbuf'] at hp
        rw [hbuf]
        rcases List.mem_append.mp hp with h1 | h2
        · exact List.mem_append.mpr (Or.inl h1)
        · exact List.mem_append.mpr (Or.inr (List.mem_cons_of_mem _ h2))
      have hkeys : buf.map Prod.fst = pre.map Prod.fst ++ c :: suf.map Prod.fst := by
        rw [hbuf]; simp
      have hkeys' : buf'.map Prod.fst = pre.map Prod.fst ++ suf.map Prod.fst := by
        rw [hbuf']; simp
      have hmid := List.nodup_middle.mp (by rw [← hkeys]; exact hnd)
      have hmid2 := List.nodup_cons.mp hmid
      have hnd' : (buf'.map Prod.fst).Nodup := by rw [hkeys']; exact hmid2.2
      have hcnot' : c ∉ buf'.map Prod.fst := by
        rw [hkeys']
        intro hc
        exact hmid2.1 (by simpa using hc)
      have hmemiff : ∀ j, j ∈ buf'.map Prod.fst ↔
          (j ∈ buf.map Prod.fst ∧ j ≠ c) := by
        intro j
        rw [hkeys, hkeys']
        constructor
        · intro hj
          constructor
          · rcases List.mem_append.mp hj with h1 | h2
            · exact List.mem_append.mpr (Or.inl h1)
            · exact List.mem_append.mpr (Or.inr (List.mem_cons_of_mem _ h2))
          · intro he
            subst he
            exact hcnot' (by rw [hkeys']; exact hj)
        · rintro ⟨hj, hne⟩
          rcases List.mem_append.mp hj with h1 | h2
          · exact List.mem_append.mpr (Or.inl h1)
          · rcases List.mem_cons.mp h2 with h3 | h4
            · exact absurd h3 hne
            · exact List.mem_append.mpr (Or.inr h4)
      have hlen' : buf'.length ≤ fuel := by
        have : buf.length = buf'.length + 1 := by
          rw [hbuf, hbuf']
          simp
          omega
        omega
      have hP' : ∀ p ∈ buf', p.2 = outputs p.1 := fun p hp => hP p (hsub p hp)
      obtain ⟨ih1, ih2, ih3, ih4, ih5, ih6, ih7⟩ :=
        ih buf' (c + 1) hlen' hP' hnd'
      rw [hres]
      dsimp only
      refine ⟨by omega, fun p hp => hsub p (ih2 p hp), ih3, ?_, ?_, ih6, ?_⟩
      · intro j
        rw [ih4 j, hmemiff j]
        constructor
        · rintro ⟨⟨hj, hne⟩, hr⟩
          exact ⟨hj, by omega⟩
        · rintro ⟨hj, hr⟩
          refine ⟨⟨hj, by omega⟩, by omega⟩
      · intro j h1 h2
        by_cases hc : j = c
        · subst hc
          exact List.mem_map.mpr ⟨(j, v), hcv_mem, rfl⟩
        · have : j ∈ buf'.map Prod.fst := ih5 j (by omega) h2
          exact ((hmemiff j).mp this).1
      · have hv : v = outputs c := hP (c, v) hcv_mem
        have hr : (drainAux fuel buf' (c + 1)).2.2 - c =
            ((drainAux fuel buf' (c + 1)).2.2 - (c + 1)) + 1 := by omega
        rw [ih7, hv, hr, List.range'_succ]
        simp

theorem deposit_inv (outputs : Nat → List β) (done : List Nat)
    (st : PoolState β) (k : Nat) (hInv : PoolInv outputs done st)
    (hk : k ∉ done) :
    PoolInv outputs (done ++ [k]) (deposit st k (outputs k)) := by
  obtain ⟨hP, hnd, hmem, hlow, hqui, hemit⟩ := hInv
  have hkkeys : k ∉ st.buf.map Prod.fst := fun hc => hk ((hmem k).mp hc).1
  have hck : st.cursor ≤ k := by
    by_contra hlt
    exact hk (hlow k (by omega))
  have hP1 : ∀ p ∈ st.buf ++ [(k, outputs k)], p.2 = outputs p.1 := by
    intro p hp
    rcases List.mem_append.mp hp with h1 | h2
    · exact hP p h1
    · rw [List.mem_singleton.mp h2]
  have hnd1 : ((st.buf ++ [(k, outputs k)]).map Prod.fst).Nodup := by
    rw [List.map_append]
    rw [List.nodup_append]
    refine ⟨hnd, by simp, ?_⟩
    intro j hj
    simp only [List.map_cons, List.map_nil, List.mem_singleton]
    intro he
    subst he
    exact hkkeys hj
  have hmem1 : ∀ j, j ∈ (st.buf ++ [(k, outputs k)]).map Prod.fst ↔
      (j ∈ done ++ [k] ∧ st.cursor ≤ j) := by
    intro j
    rw [List.map_append, List.mem_append, hmem j]
    simp only [List.map_cons, List.map_nil, List.mem_singleton,
      List.mem_append]
    constructor
    · rintro (⟨h1, h2⟩ | he)
      · exact ⟨Or.inl h1, h2⟩
      · subst he; exact ⟨Or.inr (by simp), hck⟩
    · rintro ⟨h1 | h1, h2⟩
      · exact Or.inl ⟨h1, h2⟩
      · exact Or.inr h1
  obtain ⟨d1, d2, d3, d4, d5, d6, d7⟩ :=
    drainAux_spec outputs (st.buf ++ [(k, outputs k)]).length
      (st.buf ++ [(k, outputs k)]) st.cursor le_rfl hP1 hnd1
  have hbuf_eq : (deposit st k (outputs k)).buf =
      (drainAux (st.buf ++ [(k, outputs k)]).length
        (st.buf ++ [(k, outputs k)]) st.cursor).2.1 := rfl
  have hcur_eq : (deposit st k (outputs k)).cursor =
      (drainAux (st.buf ++ [(k, outputs k)]).length
        (st.buf ++ [(k, outputs k)]) st.cursor).2.2 := rfl
  have hemit_eq : (deposit st k (outputs k)).emitted =
      st.emitted ++ (drainAux (st.buf ++ [(k, outputs k)]).length
        (st.buf ++ [(k, outputs k)]) st.cursor).1 := rfl
  refine ⟨?_, ?_, ?_, ?_, ?_, ?_⟩
  · rw [hbuf_eq]
    intro p hp
    exact hP1 p (d2 p hp)
  · rw [hbuf_eq]
    exact d3
  · intro j
    rw [hbuf_eq, hcur_eq, d4 j, hmem1 j]
    constructor
    · rintro ⟨⟨h1, h2⟩, h3⟩
      exact ⟨h1, by omega⟩
    · rintro ⟨h1, h2⟩
      exact ⟨⟨h1, by omega⟩, by omega⟩
  · intro j hj
    rw [hcur_eq] at hj
    by_cases hc : j < st.cursor
    · exact List.mem_append.mpr (Or.inl (hlow j hc))
    · have : j ∈ (st.buf ++ [(k, outputs k)]).map Prod.fst :=
        d5 j (by omega) hj
      exact ((hmem1 j).mp this).1
  · rw [hbuf_eq, hcur_eq]
    exact d6
  · rw [hemit_eq, hemit, d7, hcur_eq]
    have hsplit : List.range st.cursor ++
        List.range' st.cursor
          ((drainAux (st.buf ++ [(k, outputs k)]).length
            (st.buf ++ [(k, outputs k)]) st.cursor).2.2 - st.cursor) =
        List.range
          ((drainAux (st.buf ++ [(k, outputs k)]).length
            (st.buf ++ [(k, outputs k)]) st.cursor).2.2) := by
      rw [List.range_eq_range', List.range_eq_range']
      have happ := List.range'_append 0 st.cursor
        ((drainAux (st.buf ++ [(k, outputs k)]).length
          (st.buf ++ [(k, outputs k)]) st.cursor).2.2 - st.cursor) 1
      simp only [Nat.one_mul, Nat.zero_add] at happ
      rw [happ]
      congr 1
      omega
    rw [← hsplit, List.map_append, List.flatten_append]

theorem runSchedule_inv (outputs : Nat → List β) :
    ∀ (sched done : List Nat) (st : PoolState β),
      PoolInv outputs done st → sched.Nodup → (∀ j ∈ sched, j ∉ done) →
      PoolInv outputs (done ++ sched) (runSchedule outputs sched st) := by
  intro sched
  induction sched with
  | nil =>
    intro done st h _ _
    simpa [runSchedule] using h
  | cons k rest ih =>
    intro done st h hnd hdisj
    have hstep : runSchedule outputs (k :: rest) st =
        runSchedule outputs rest (deposit st k (outputs k)) := rfl
    rw [hstep]
    have h1 := deposit_inv outputs done st k h (hdisj k (by simp))
    have hnd2 := List.nodup_cons.mp hnd
    have h2 := ih (done ++ [k]) (deposit st k (outputs k)) h1 hnd2.2 ?_
    · rw [List.append_assoc] at h2
      simpa using h2
    · intro j hj
      rw [List.mem_append, List.mem_singleton]
      rintro (hd | he)
      · exact hdisj j (by simp [hj]) hd
      · subst he
        exact hnd2.1 hj

/-! ## Claim theorems -/

/-- C2: for the Batched Relational Source with batch size `B > 0` over a
result set of `n` rows read without error, the emitted data envelopes are
exactly the consecutive size-`B` chunks of the rows in row order — hence
exactly `⌈n/B⌉` envelopes, each full chunk of size `B` and a trailing
partial chunk of size `n mod B` when non-zero, and the trace ends with the
channel close. -/
theorem source_batching (B : Int) (hB : 0 < B) (cols : List String)
    (rows : List RawRow) :
    GetDataFromSQLQuery (.ok ⟨.ok cols, rows, none⟩) B =
      .ok (sqlQueryTrace B cols rows none) ∧
    dataBatches (sqlQueryTrace B cols rows none) =
      chunksFrom B.toNat [] (rows.map (buildEntry cols)) ∧
    (dataBatches (sqlQueryTrace B cols rows none)).length =
      (rows.length + B.toNat - 1) / B.toNat ∧
    (dataBatches (sqlQueryTrace B cols rows none)).map List.length =
      List.replicate (rows.length / B.toNat) B.toNat ++
        (if rows.length % B.toNat = 0 then [] else [rows.length % B.toNat]) ∧
    (dataBatches (sqlQueryTrace B cols rows none)).flatten =
      rows.map (buildEntry cols) ∧
    errMsgs (sqlQueryTrace B cols rows none) = [] ∧
    (sqlQueryTrace B cols rows none).getLast? = some .close := by
  have hb : 0 < B.toNat := by omega
  have hnil : ([] : List Obj).length < B.toNat := by
    simp only [List.length_nil]; omega
  have hchunks : dataBatches (sqlQueryTrace B cols rows none) =
      chunksFrom B.toNat [] (rows.map (buildEntry cols)) := by
    rw [dataBatches_trace]
    exact scanLoop_chunks B hB cols rows [] hnil
  have hlenmap : (dataBatches (sqlQueryTrace B cols rows none)).map List.length =
      List.replicate (rows.length / B.toNat) B.toNat ++
        (if rows.length % B.toNat = 0 then [] else [rows.length % B.toNat]) := by
    rw [hchunks, chunksFrom_map_length B.toNat hb _ [] hnil]
    simp
  refine ⟨rfl, hchunks, ?_, hlenmap, ?_, ?_, (trace_close_last B cols rows none).1⟩
  · have h1 : (dataBatches (sqlQueryTrace B cols rows none)).length =
        ((dataBatches (sqlQueryTrace B cols rows none)).map List.length).length := by
      rw [List.length_map]
    rw [h1, hlenmap, ← ceil_div_eq B.toNat rows.length hb]
    by_cases h : rows.length % B.toNat = 0 <;> simp [h]
  · rw [hchunks, chunksFrom_flatten]
    simp
  · rw [errMsgs_trace]
    rfl

/-- C2 witness: batch size 2 over five rows gives envelope sizes
`[2, 2, 1]`. -/
theorem source_batching_witness :
    (dataBatches (sqlQueryTrace 2 ["c"] r5 none)).map List.length = [2, 2, 1] := by
  have h := (source_batching 2 (by decide) ["c"] r5).2.2.2.1
  simpa using h

/-- C3: when `rows.Err()` is non-nil after the read loop, the source emits
exactly one `{"Error": msg}` envelope on the data channel, still flushes
any accumulated partial batch, and only then closes the channel (one close
event, last in the trace); construction still succeeds, so the caller sees
no synchronous error. -/
theorem source_midstream_error (B : Int) (cols : List String)
    (rows : List RawRow) (m : String) :
    GetDataFromSQLQuery (.ok ⟨.ok cols, rows, some m⟩) B =
      .ok (sqlQueryTrace B cols rows (some m)) ∧
    sqlQueryTrace B cols rows (some m) =
      ((scanLoop B cols rows []).1.map (fun b => .send (.batch b))) ++
        [.send (.errJSON m)] ++
        (if (scanLoop B cols rows []).2.isEmpty then []
         else [.send (.batch (scanLoop B cols rows []).2)]) ++ [.close] ∧
    errMsgs (sqlQueryTrace B cols rows (some m)) = [m] ∧
    dataBatches (sqlQueryTrace B cols rows (some m)) =
      (scanLoop B cols rows []).1 ++
        (if (scanLoop B cols rows []).2.isEmpty then []
         else [(scanLoop B cols rows []).2]) ∧
    (sqlQueryTrace B cols rows (some m)).getLast? = some .close ∧
    ((sqlQueryTrace B cols rows (some m)).filter isCloseEv).length = 1 := by
  refine ⟨rfl, ?_, ?_, dataBatches_trace B cols rows (some m),
    (trace_close_last B cols rows (some m)).1,
    (trace_close_last B cols rows (some m)).2⟩
  · unfold sqlQueryTrace
    by_cases h : (scanLoop B cols rows []).2.isEmpty <;> simp [h]
  · rw [errMsgs_trace]
    rfl

/-- C4: a `db.Query` failure or a `rows.Columns()` failure is returned
synchronously by `GetDataFromSQLQuery`; the result is the error itself,
never a trace, so no envelope is ever emitted. -/
theorem source_construction_failure :
    (∀ (e : String) (B : Int), GetDataFromSQLQuery (.error e) B = .error e) ∧
    (∀ (e : String) (rows : List RawRow) (err : Option String) (B : Int),
      GetDataFromSQLQuery (.ok ⟨.error e, rows, err⟩) B = .error e) ∧
    (∀ (q : Except String RowsHandle) (B : Int) (e : String),
      GetDataFromSQLQuery q B = .error e →
        ∀ tr, GetDataFromSQLQuery q B ≠ .ok tr) := by
  refine ⟨fun e B => rfl, fun e rows err B => rfl, ?_⟩
  intro q B e he tr hok
  rw [he] at hok
  exact Except.noConfusion hok

/-- C4 witness: a failing query yields the error itself and never an
event trace. -/
theorem source_construction_failure_witness :
    GetDataFromSQLQuery (.error "query failed") 100 ≠ .ok [] :=
  source_construction_failure.2.2 (.error "query failed") 100 "query failed"
    rfl []

/-- C7: with batch size `B ≤ 0` and an error-free read, nothing is emitted
while rows are being read: the whole trace is a single data envelope
holding every row (when any), followed by the close. -/
theorem source_nonpositive_batch (B : Int) (hB : B ≤ 0) (cols : List String)
    (rows : List RawRow) :
    sqlQueryTrace B cols rows none =
      (if rows.isEmpty then []
       else [.send (.batch (rows.map (buildEntry cols)))]) ++ [.close] ∧
    (rows ≠ [] →
      dataBatches (sqlQueryTrace B cols rows none) =
        [rows.map (buildEntry cols)]) := by
  have hscan := scanLoop_nonpos B hB cols rows []
  constructor
  · unfold sqlQueryTrace
    rw [hscan]
    cases rows <;> simp
  · intro hne
    rw [dataBatches_trace, hscan]
    cases rows with
    | nil => exact absurd rfl hne
    | cons r rs => simp

/-- C7 witness: batch size −3 over five rows yields one envelope with all
five rows and then the close. -/
theorem source_nonpositive_batch_witness :
    sqlQueryTrace (-3) ["c"] r5 none =
      [.send (.batch (r5.map (buildEntry ["c"]))), .close] := by
  have h := (source_nonpositive_batch (-3) (by decide) ["c"] r5).1
  simpa using h

/-- C6 counterexample: on the decoded value `[1]` — an array that is
neither empty nor made of objects — `SQLInsertData` panics at the
`o.(map[string]interface{})` type assertion instead of returning the
`UnsupportedShapeError` the claim promises for every unsupported shape. -/
theorem sink_array_scalar_panics :
    SQLInsertData (.jarr [.jnum 1]) "t" false = .panicked ∧
    isErrored (SQLInsertData (.jarr [.jnum 1]) "t" false) = false :=
  ⟨rfl, rfl⟩

/-- C6 (amended): for every decoded value that is neither an object nor an
array (the `default` branch of the type switch), `SQLInsertData` returns
the `unsupported data type` error and never reaches `stmt.Exec`; an array
containing a non-object element instead causes a runtime panic. -/
theorem sink_unsupported_shape (v : JVal) (t : String) (dup : Bool)
    (h : isNonTabular v = true) :
    SQLInsertData v t dup =
      .errored ("SQLInsertData: unsupported data type: " ++ goTypeName v) ∧
    isExecuted (SQLInsertData v t dup) = false := by
  cases v with
  | jarr l => simp [isNonTabular] at h
  | jobj f => simp [isNonTabular] at h
  | jnull => exact ⟨rfl, rfl⟩
  | jbool b => exact ⟨rfl, rfl⟩
  | jnum n => exact ⟨rfl, rfl⟩
  | jstr s => exact ⟨rfl, rfl⟩

/-- C6 witness: a string payload is rejected with the unsupported-type
error. -/
theorem sink_unsupported_shape_witness :
    SQLInsertData (.jstr "x") "t" true =
      .errored ("SQLInsertData: unsupported data type: " ++
        goTypeName (.jstr "x")) :=
  (sink_unsupported_shape (.jstr "x") "t" true rfl).1

/-- C8: extraction round-trips wrapping — a wrapped single object extracts
to the one-element sequence holding it, and a wrapped uniform-key object
array extracts to exactly its objects, in order. -/
theorem envelope_roundtrip :
    (∀ f : Obj, extractObjects (wrap (.jobj f)) = .ok [f]) ∧
    (∀ objs : List Obj, uniformKeys objs →
      extractObjects (wrap (.jarr (objs.map .jobj))) = .ok objs) := by
  refine ⟨fun f => rfl, fun objs _ => ?_⟩
  unfold wrap extractObjects
  exact objsOf_map objs

/-- C8 witness: a two-object uniform-key array round-trips. -/
theorem envelope_roundtrip_witness :
    extractObjects (wrap (.jarr
      [.jobj [("a", .jnum 1)], .jobj [("a", .jnum 2)]])) =
      .ok [[("a", .jnum 1)], [("a", .jnum 2)]] :=
  envelope_roundtrip.2 [[("a", .jnum 1)], [("a", .jnum 2)]]
    (by intro o ho; fin_cases ho <;> rfl)

/-- C1: the sink's column list is the key set of the first object sorted
lexicographically (sorted with respect to the byte-wise order `strLe` and
a permutation of the first object's keys); every object's values are bound
in that same sorted order, batch by batch; with upsert enabled the ON
DUPLICATE KEY UPDATE clause touching every column is appended; and on the
spec's example `[{"b":1,"a":2}, {"b":3,"a":4}]` with table `t` the exact
statement and bound sequence `[2,1,4,3]` are produced. -/
theorem sink_insert_shape :
    (SQLInsertData c1Input "t" true =
      .executed
        "INSERT INTO t(a,b) VALUES(?,?),(?,?) ON DUPLICATE KEY UPDATE `a`=VALUES(`a`),`b`=VALUES(`b`)"
        [some (.jnum 2), some (.jnum 1), some (.jnum 4), some (.jnum 3)]) ∧
    (∀ o : Obj, (sortedColumns o).Sorted strLe ∧
      (sortedColumns o).Perm (o.map Prod.fst)) ∧
    (∀ objects : List Obj,
      insertVals objects =
        (objects.map (fun o =>
          (sortedColumns (objects.headD [])).map (lookupVal o))).flatten) ∧
    (∀ (objects : List Obj) (t : String),
      buildInsertSQL objects t true =
        buildInsertSQL objects t false ++
          (" ON DUPLICATE KEY UPDATE " ++
            dupClause (sortedColumns (objects.headD [])))) := by
  refine ⟨rfl,
    fun o => ⟨sortedColumns_sorted o, sortedColumns_perm o⟩,
    insertVals_eq, ?_⟩
  intro objects t
  rw [buildInsertSQL_eq objects t true, buildInsertSQL_eq objects t false]
  rw [if_pos rfl, if_neg (by simp), String.append_empty]

/-- C9: the SQL text built for a batch is the INSERT head followed by
exactly `len(objects)` comma-joined copies of one placeholder group; that
group consists of exactly `C` question-mark placeholders, where `C` is the
number of keys of the first object; and the bound-value list has exactly
`len(objects) * C` entries, so bound values always match placeholders in
count. -/
theorem placeholder_bind_counts (objects : List Obj) (t : String)
    (dup : Bool) :
    buildInsertSQL objects t dup =
      "INSERT INTO " ++ t ++ "(" ++
        String.intercalate "," (sortedColumns (objects.headD [])) ++
        ") VALUES" ++
        joinComma (List.replicate objects.length
          (valsGroup (sortedColumns (objects.headD [])).length)) ++
        (if dup then
          " ON DUPLICATE KEY UPDATE " ++
            dupClause (sortedColumns (objects.headD []))
         else "") ∧
    valsGroup (sortedColumns (objects.headD [])).length =
      "(" ++ joinComma (List.replicate
        (sortedColumns (objects.headD [])).length "?") ++ ")" ∧
    (valsGroup (sortedColumns (objects.headD [])).length).data.count '?' =
      (sortedColumns (objects.headD [])).length ∧
    (insertVals objects).length =
      objects.length * (sortedColumns (objects.headD [])).length := by
  refine ⟨buildInsertSQL_eq objects t dup,
    valsGroup_eq _, ?_, ?_⟩
  · rw [valsGroup_eq]
    rw [String.data_append, String.data_append, List.count_append,
      List.count_append, count_joinComma_marks]
    have d1 : List.count '?' "(".data = 0 := rfl
    have d2 : List.count '?' ")".data = 0 := rfl
    rw [d1, d2]
    omega
  · rw [insertVals_eq, List.length_flatten, List.map_map]
    have h1 : (List.map (List.length ∘ fun o =>
        List.map (lookupVal o) (sortedColumns (objects.headD []))) objects) =
        List.map (fun _ =>
          (sortedColumns (objects.headD [])).length) objects := by
      apply List.map_congr_left
      intro o _
      simp [List.length_map]
    rw [h1]
    induction objects with
    | nil => simp
    | cons o os ih =>
      simp_all [List.map_cons, List.sum_cons, Nat.succ_mul]
      omega

/-- C10 counterexample: the message consisting of a backslash followed by
`n` contains a backslash, yet the emitted envelope is the well-formed JSON
document `{"Error":"\n"}` — refuting the claimed "well-formed if and only
if the message contains no double-quote, backslash, or control
characters". -/
theorem sendErr_escaping_iff_fails :
    msgHasSpecial "\\n" = true ∧
    isValidJSON (sendErrPayload "\\n") = true :=
  ⟨rfl, rfl⟩

/-- C10 (amended): the `sendErr` envelope is the literal concatenation
of the JSON skeleton around the raw message with no escaping applied, and
whenever the message contains no double quote, no backslash and no control
character, the emitted envelope is a well-formed JSON object (the converse
direction of the claim's "if and only if" is false: a message may contain
a backslash that happens to form a valid escape, or quotes that happen to
close and reopen the string). -/
theorem sendErr_unescaped (msg : String) (h : msgHasSpecial msg = false) :
    sendErrPayload msg = "\x7b\"Error\":\"" ++ msg ++ "\"\x7d" ∧
    isValidJSON (sendErrPayload msg) = true := by
  refine ⟨rfl, ?_⟩
  have hclean : ∀ c ∈ msg.data, c ≠ '"' ∧ c ≠ '\\' ∧ ¬ c.toNat < 32 := by
    intro c hc
    unfold msgHasSpecial at h
    have h2 := List.any_eq_false.mp h c hc
    simp only [Bool.or_eq_true, beq_iff_eq, decide_eq_true_eq, not_or] at h2
    exact ⟨h2.1.1, h2.1.2, h2.2⟩
  unfold isValidJSON
  have hlen : (sendErrPayload msg).data.length = msg.data.length + 12 := by
    unfold sendErrPayload
    rw [String.data_append, String.data_append, List.length_append,
      List.length_append]
    have l1 : ("\x7b\"Error\":\"" : String).data.length = 10 := rfl
    have l2 : ("\"\x7d" : String).data.length = 2 := rfl
    rw [l1, l2]
    omega
  rw [hlen]
  rw [show msg.data.length + 12 + 1 = msg.data.length + 13 from by omega]
  rw [jsonVal_errPayload msg hclean]
  rfl

/-- C10 witness: an ordinary driver error message yields well-formed
JSON. -/
theorem sendErr_unescaped_witness :
    isValidJSON (sendErrPayload "no such table: users") = true :=
  (sendErr_unescaped "no such table: users" rfl).2

/-- C5: for a concurrent stage over inputs `0 .. n-1` whose `k`-th
`ProcessData` call emits the ordered sub-sequence `outputs k`, the records
forwarded downstream are `outputs 0` fully, then `outputs 1`, … — for
EVERY order in which the workers finish (every permutation `sched` of the
sequence numbers); in particular any two completion orders (such as the
sequential `K = 1` one and any `K = 4` interleaving) yield identical
downstream output. -/
theorem concurrent_stage_order (outputs : Nat → List β) (n : Nat)
    (sched : List Nat) (h : sched.Perm (List.range n)) :
    concurrentStageOutput outputs sched =
      ((List.range n).map outputs).flatten ∧
    (∀ sched', sched'.Perm (List.range n) →
      concurrentStageOutput outputs sched' =
        concurrentStageOutput outputs sched) := by
  have main : ∀ s : List Nat, s.Perm (List.range n) →
      concurrentStageOutput outputs s =
        ((List.range n).map outputs).flatten := by
    intro s hs
    have hnd : s.Nodup := hs.nodup_iff.mpr (List.nodup_range n)
    have hinit : PoolInv outputs [] (⟨[], 0, []⟩ : PoolState β) := by
      refine ⟨?_, ?_, ?_, ?_, ?_, ?_⟩
      · intro p hp; exact absurd hp (List.not_mem_nil p)
      · simp
      · intro j; simp
      · intro j hj
        dsimp at hj
        exact absurd hj (by omega)
      · simp
      · simp
    have hrun := runSchedule_inv outputs s [] ⟨[], 0, []⟩ hinit hnd
      (fun j _ => List.not_mem_nil j)
    rw [List.nil_append] at hrun
    obtain ⟨hP, hnd2, hmem, hlow, hqui, hemit⟩ := hrun
    have hsmem : ∀ j, j ∈ s ↔ j < n := by
      intro j
      rw [hs.mem_iff, List.mem_range]
    have hcn : (runSchedule outputs s ⟨[], 0, []⟩).cursor = n := by
      have hub : (runSchedule outputs s ⟨[], 0, []⟩).cursor ≤ n := by
        by_contra hgt
        have hn : n ∈ s := hlow n (by omega)
        have := (hsmem n).mp hn
        omega
      have hlb : n ≤ (runSchedule outputs s ⟨[], 0, []⟩).cursor := by
        by_contra hlt
        have hin : (runSchedule outputs s ⟨[], 0, []⟩).cursor ∈ s :=
          (hsmem _).mpr (by omega)
        exact hqui ((hmem _).mpr ⟨hin, le_rfl⟩)
      omega
    show (runSchedule outputs s ⟨[], 0, []⟩).emitted = _
    rw [hemit, hcn]
  exact ⟨main sched h, fun s' hs' => (main s' hs').trans (main sched h).symm⟩

/-- C5 witness: with three inputs and completion order `[2, 0, 1]`, the
downstream output is still the in-order concatenation of the three
sub-sequences. -/
theorem concurrent_stage_order_witness :
    concurrentStageOutput (fun k => [10 * k, 10 * k + 1]) [2, 0, 1] =
      ((List.range 3).map (fun k => [10 * k, 10 * k + 1])).flatten :=
  (concurrent_stage_order (fun k => [10 * k, 10 * k + 1]) 3 [2, 0, 1]
    (by decide)).1
